import Mathlib

/-!
Shallow embedding of `src/wcwidth/wcwidth.py` (the width classification engine:
binary interval search, Unicode version resolver, per-character and per-string
width classification).

Conventions of the embedding:

* Python machine-level behaviour that can raise an exception is modelled with
  `Option`: `none` is an uncaught exception (`KeyError`, `IndexError`,
  `ValueError`), `some x` a normal return of `x`.
* The module-level data assets imported at the top of `wcwidth.py`
  (`ZERO_WIDTH`, `WIDE_EASTASIAN`, `VS16_NARROW_TO_WIDE` and
  `list_versions()`) live in modules that are not part of the sources here;
  they are modelled from the spec (see `TableData`) and passed to the embedded
  functions as an explicit parameter.  Likewise the environment variable
  `UNICODE_VERSION` read by `'auto'` resolution is an explicit
  `env : Option String` parameter.
* `functools.lru_cache` is semantically transparent for the pure functions it
  decorates and is not modelled.
-/

namespace Wcwidth

/-- `str.split('.')`, by character: split on every `'.'`, keeping empty
pieces, so `"8.0"` gives `["8", "0"]` and `""` gives `[""]`. -/
def splitDot (acc : List Char) : List Char → List (List Char)
  | [] => [acc.reverse]
  | c :: rest =>
    if c = '.' then acc.reverse :: splitDot [] rest
    else splitDot (c :: acc) rest

/-- Decimal digits to a number, left to right; a non-digit raises
`ValueError` (`none`). -/
def decDigits (acc : Nat) : List Char → Option Nat
  | [] => some acc
  | c :: rest =>
    if c.isDigit then decDigits (acc * 10 + (c.toNat - 48)) rest
    else none

/-- Python `int(s)` as used on the components of a dotted version string:
an optional sign followed by at least one decimal digit; anything else
raises `ValueError` (`none`).  (Python `int` also tolerates surrounding
whitespace and `_` digit separators; those never occur in version tokens
and are not modelled.) -/
def pyint (cs : List Char) : Option Int :=
  match cs with
  | [] => none
  | '-' :: rest =>
    if rest = [] then none else (decDigits 0 rest).map (fun n => -(n : Int))
  | '+' :: rest =>
    if rest = [] then none else (decDigits 0 rest).map (fun n => (n : Int))
  | other => (decDigits 0 other).map (fun n => (n : Int))

/-- Python tuple comparison `a <= b` on integer tuples: lexicographic, a
proper prefix is smaller than the longer tuple. -/
def tupleLE : List Int → List Int → Bool
  | [], _ => true
  | _ :: _, [] => false
  | a :: as, b :: bs =>
    if a < b then true
    else if b < a then false
    else tupleLE as bs

/-- `_wcversion_value` (wcwidth.py lines 190-199):
`tuple(int(n) for n in ver_string.split('.'))`; a non-numeric component
raises `ValueError` (`none`). -/
def wcversion_value (ver_string : String) : Option (List Int) :=
  (splitDot [] ver_string.data).mapM pyint

/-- The `for version in reversed(supported_versions)` loop of
`_wcmatch_version` (wcwidth.py lines 236-240), applied here to the already
reversed list.  Result:
* `none`: `_wcversion_value(version)` raised on some scanned entry;
* `some (some (v, w))`: the loop returned `v`, with `w = true` exactly when
  the advisory warning was emitted (`version != given_version`);
* `some none`: the loop ran to completion without returning. -/
def wcmatch_loop (given_version : String) (given_value : List Int) :
    List String → Option (Option (String × Bool))
  | [] => some none
  | v :: rest =>
    match wcversion_value v with
    | none => none
    | some vv =>
      if tupleLE vv given_value then some (some (v, v != given_version))
      else wcmatch_loop given_version given_value rest

/-- `_wcmatch_version` (wcwidth.py lines 227-244) after the `'auto'`
substitution of its first two lines, over an explicit supported-versions
list.  Returns the resolved version paired with whether an advisory warning
was emitted; `none` models an uncaught `ValueError`/`IndexError`
(unparseable token, or an empty versions list reached by `[-1]`/`[0]`). -/
def wcmatch_resolved (versions : List String) (given_version : String) :
    Option (String × Bool) :=
  if given_version = "latest" then
    (versions.getLast?).map (fun v => (v, false))
  else
    match wcversion_value given_version with
    | none => none
    | some given_value =>
      match wcmatch_loop given_version given_value versions.reverse with
      | none => none
      | some (some r) => some r
      | some none => (versions.head?).map (fun v => (v, true))

/-- `_wcmatch_version` (wcwidth.py lines 227-244): `'auto'` consults the
environment's `UNICODE_VERSION` (parameter `env`), defaulting to
`'latest'`; then resolution proceeds as `wcmatch_resolved`. -/
def wcmatch_version_full (versions : List String) (env : Option String)
    (given_version : String) : Option (String × Bool) :=
  wcmatch_resolved versions
    (if given_version = "auto" then env.getD "latest" else given_version)

/-- `_wcmatch_version` projected to its return value (the warning emission
dropped). -/
def wcmatch_version_with (versions : List String) (env : Option String)
    (given_version : String) : Option String :=
  (wcmatch_version_full versions env given_version).map Prod.fst

/-- The loop of `_bisearch` (wcwidth.py lines 94-103) on an interval list.
`lbound`/`ubound` are Python ints; `//` on the nonnegative values arising
here agrees with Lean's `Int` division.  An out-of-range subscript
`table[mid]` would raise `IndexError` (`none`); the theorems below show the
reachable calls are in bounds. -/
def bisearchLoop (table : List (Nat × Nat)) (ucs : Nat) (lbound ubound : Int) :
    Option Nat :=
  if _h : lbound ≤ ubound then
    match table[((lbound + ubound) / 2).toNat]? with
    | none => none
    | some iv =>
      if iv.2 < ucs then bisearchLoop table ucs ((lbound + ubound) / 2 + 1) ubound
      else if ucs < iv.1 then bisearchLoop table ucs lbound ((lbound + ubound) / 2 - 1)
      else some 1
  else some 0
termination_by (ubound + 1 - lbound).toNat
decreasing_by
  · omega
  · omega

/-- `_bisearch` (wcwidth.py lines 78-103) applied to a genuine interval
list `[(start, end), ...]`.  `table[0]` / `table[-1]` on an empty list raise
`IndexError` (`none`). -/
def bisearch (ucs : Nat) (table : List (Nat × Nat)) : Option Nat :=
  match table[0]? with
  | none => none
  | some first =>
    match table[table.length - 1]? with
    | none => none
    | some last =>
      if ucs < first.1 ∨ last.2 < ucs then some 0
      else bisearchLoop table ucs 0 ((table.length : Int) - 1)

/-- Modelled from the spec: the data modules `table_zero`, `table_wide`,
`table_vs16` and `unicode_versions` are not among the sources.  Per the
spec's data model, `ZERO_WIDTH` and `WIDE_EASTASIAN` are Version-indexed
Table Sets (mappings from Unicode version string to an Interval Table),
`VS16_NARROW_TO_WIDE` is keyed by narrow base code points, and
`list_versions()` is the non-empty ascending list of supported versions
(the mappings' key set). -/
structure TableData where
  zero_width : List (String × List (Nat × Nat))
  wide_eastasian : List (String × List (Nat × Nat))
  vs16_narrow_to_wide : List Nat
  versions : List String

/-- The calls `_bisearch(ucs, ZERO_WIDTH)` and `_bisearch(ucs, WIDE_EASTASIAN)`
(wcwidth.py lines 137 and 141) pass the whole version-indexed mapping, not
one version's interval list.  Inside `_bisearch`, the first evaluated
subscript `table[0]` is then a mapping lookup of the integer key `0`; every
key of the mapping is a version string, so no key equals `0` and the lookup
raises `KeyError` before any interval is compared.  Modelled as `none`. -/
def bisearchMapping (_ucs : Nat) (_table : List (String × List (Nat × Nat))) :
    Option Nat :=
  none

/-- `wcwidth` (wcwidth.py lines 129-153) after `ord` extraction and version
resolution: the C0/C1 control test, the two `_bisearch` calls on the
module-level mappings, the U+FE00-U+FE0F variation selector test, the VS16
key test, and the default of 1. -/
def wcwidthCore (t : TableData) (ucs : Nat) : Option Int :=
  if ucs < 32 ∨ (0x7F ≤ ucs ∧ ucs < 0xA0) then some (-1)
  else
    match bisearchMapping ucs t.zero_width with
    | none => none
    | some z =>
      if z ≠ 0 then some 0
      else
        match bisearchMapping ucs t.wide_eastasian with
        | none => none
        | some w =>
          if w ≠ 0 then some 2
          else if 0xFE00 ≤ ucs ∧ ucs ≤ 0xFE0F then some 0
          else if ucs ∈ t.vs16_narrow_to_wide then some 2
          else some 1

/-- `wcwidth` (wcwidth.py lines 129-153) on an already-extracted ordinal:
resolves the version token first (a `ValueError` there propagates), then
classifies; the resolved version is bound but never consulted again. -/
def wcwidth (t : TableData) (env : Option String) (ucs : Nat)
    (unicode_version : String) : Option Int :=
  match wcmatch_version_with t.versions env unicode_version with
  | none => none
  | some _ => wcwidthCore t ucs

/-- The first argument of `wcwidth` (wcwidth.py line 129): either a
one-character string (carried here by its ordinal) or an int. -/
inductive WcArg where
  | onechar (ordinal : Nat)
  | int (n : Nat)

/-- `ucs = ord(wc) if isinstance(wc, str) else wc` (wcwidth.py line 129). -/
def wcOrd : WcArg → Nat
  | WcArg.onechar o => o
  | WcArg.int n => n

/-- `wcwidth` on either form of its first argument. -/
def wcwidthArg (t : TableData) (env : Option String) (wc : WcArg)
    (unicode_version : String) : Option Int :=
  wcwidth t env (wcOrd wc) unicode_version

/-- The accumulation loop of `wcswidth` (wcwidth.py lines 180-187): each
character's width is taken via `wcwidth` (an exception propagates); a
negative width returns `-1` immediately, otherwise widths are summed. -/
def wcswidthLoop (t : TableData) (env : Option String) (unicode_version : String) :
    List Nat → Int → Option Int
  | [], width => some width
  | c :: rest, width =>
    match wcwidth t env c unicode_version with
    | none => none
    | some cw =>
      if cw < 0 then some (-1)
      else wcswidthLoop t env unicode_version rest (width + cw)

/-- `wcswidth` (wcwidth.py lines 156-187): `n = len(pwcs)` when `None`, the
loop runs over `pwcs[:n]`. -/
def wcswidth (t : TableData) (env : Option String) (pwcs : List Nat)
    (n : Option Nat) (unicode_version : String) : Option Int :=
  wcswidthLoop t env unicode_version (pwcs.take (n.getD pwcs.length)) 0

/-- `iv.1 ≤ q ≤ iv.2`: the query lies in the closed interval. -/
def inInterval (q : Nat) (iv : Nat × Nat) : Bool :=
  decide (iv.1 ≤ q) && decide (q ≤ iv.2)

/-- The Interval Table invariant of the spec: each interval is well-formed
(`start ≤ end`) and intervals are sorted ascending and pairwise disjoint. -/
def sortedDisjoint : List (Nat × Nat) → Bool
  | [] => true
  | [iv] => decide (iv.1 ≤ iv.2)
  | iv :: iv2 :: rest =>
    decide (iv.1 ≤ iv.2) && decide (iv.2 < iv2.1) && sortedDisjoint (iv2 :: rest)

/-- Does the supported version `u` parse to a tuple `≤ given_value`?  This is
the predicate the `_wcmatch_version` loop tests (false also when `u` does
not parse). -/
def versionLE (u : String) (given_value : List Int) : Bool :=
  match wcversion_value u with
  | some t => tupleLE t given_value
  | none => false

/-- The parsed tuple of a supported version (defaulting to `[]`, unused under
the parseability hypotheses below). -/
def valueOf (u : String) : List Int :=
  (wcversion_value u).getD []

/-- A concrete instantiation of the external data asset, used to evaluate
the embedded functions: three supported versions whose `wide_eastasian`
tables differ (`8.0.0` adds an emoji block), as the spec's per-version
tables do. -/
def exTables : TableData where
  zero_width :=
    [("4.1.0", [(0x300, 0x36F)]),
     ("5.0.0", [(0x300, 0x36F), (0x483, 0x489)]),
     ("8.0.0", [(0x300, 0x36F), (0x483, 0x489)])]
  wide_eastasian :=
    [("4.1.0", [(0x1100, 0x115F), (0x2E80, 0x303E)]),
     ("5.0.0", [(0x1100, 0x115F), (0x2E80, 0x303E)]),
     ("8.0.0", [(0x1100, 0x115F), (0x2E80, 0x303E), (0x1F300, 0x1F64F)])]
  vs16_narrow_to_wide := [0x2139, 0x2194]
  versions := ["4.1.0", "5.0.0", "8.0.0"]

/-- The spec's binary-search example table `[(10, 20), (30, 40)]`. -/
def exampleTable : List (Nat × Nat) := [(10, 20), (30, 40)]

/-! ### Python tuple comparison -/

theorem tupleLE_refl : ∀ a : List Int, tupleLE a a = true
  | [] => rfl
  | x :: xs => by simp [tupleLE, tupleLE_refl xs]

theorem tupleLE_total : ∀ a b : List Int, tupleLE a b = true ∨ tupleLE b a = true
  | [], _ => Or.inl rfl
  | _ :: _, [] => Or.inr rfl
  | a :: as, b :: bs => by
    rcases lt_trichotomy a b with h | h | h
    · left
      simp [tupleLE, h]
    · subst h
      rcases tupleLE_total as bs with h2 | h2 <;> simp [tupleLE, h2]
    · right
      simp [tupleLE, h]

/-! ### The version resolver -/

theorem versionLE_eq {u : String} {gv vv : List Int}
    (h : wcversion_value u = some vv) : versionLE u gv = tupleLE vv gv := by
  simp [versionLE, h]

theorem valueOf_eq {u : String} {vv : List Int}
    (h : wcversion_value u = some vv) : valueOf u = vv := by
  simp [valueOf, h]

/-- The scan loop, on a list whose entries all parse, returns the first entry
whose parsed value is `≤ given_value` (with the warning flag recording
string inequality), and completes without returning when there is none. -/
theorem wcmatch_loop_eq_find (given : String) (gv : List Int) :
    ∀ l : List String, (∀ u ∈ l, (wcversion_value u).isSome = true) →
      wcmatch_loop given gv l =
        some ((l.find? (fun u => versionLE u gv)).map (fun v => (v, v != given)))
  | [], _ => rfl
  | v :: rest, hall => by
    obtain ⟨vv, hvv⟩ := Option.isSome_iff_exists.1 (hall v (List.mem_cons_self v rest))
    have hrest := wcmatch_loop_eq_find given gv rest
      (fun u hu => hall u (List.mem_cons_of_mem v hu))
    by_cases h : tupleLE vv gv = true
    · rw [List.find?_cons_of_pos _ (by rw [versionLE_eq hvv]; exact h)]
      simp [wcmatch_loop, hvv, h]
    · rw [List.find?_cons_of_neg _ (by rw [versionLE_eq hvv]; simpa using h)]
      simp only [wcmatch_loop, hvv]
      rw [if_neg h, hrest]

/-- `_wcmatch_version` on a non-`latest`, parseable token over parseable
supported versions: the descending scan, then the below-range fallback to
the earliest supported version. -/
theorem wcmatch_resolved_eq (versions : List String) (given : String) (gv : List Int)
    (hgl : given ≠ "latest") (hg : wcversion_value given = some gv)
    (hall : ∀ u ∈ versions, (wcversion_value u).isSome = true) :
    wcmatch_resolved versions given =
      match versions.reverse.find? (fun u => versionLE u gv) with
      | some v => some (v, v != given)
      | none => (versions.head?).map (fun v => (v, true)) := by
  unfold wcmatch_resolved
  rw [if_neg hgl, hg]
  dsimp only
  rw [wcmatch_loop_eq_find given gv versions.reverse
    (fun u hu => hall u (List.mem_reverse.1 hu))]
  cases versions.reverse.find? (fun u => versionLE u gv) <;> simp

theorem mem_of_head?_eq {α : Type} {l : List α} {a : α} (h : l.head? = some a) :
    a ∈ l := by
  cases l with
  | nil => simp at h
  | cons x xs =>
    simp only [List.head?_cons, Option.some.injEq] at h
    exact h ▸ List.mem_cons_self x xs

/-- A token that parses is neither `"auto"` nor `"latest"`. -/
theorem ne_auto_latest_of_parses {v : String}
    (h : (wcversion_value v).isSome = true) : v ≠ "auto" ∧ v ≠ "latest" := by
  constructor
  · intro hv
    rw [hv, show wcversion_value "auto" = none from rfl] at h
    simp at h
  · intro hv
    rw [hv, show wcversion_value "latest" = none from rfl] at h
    simp at h

/-- A supported version (over a parseable supported list) always resolves:
its own scan entry satisfies `value(v) ≤ value(v)`. -/
theorem wcmatch_resolved_mem_isSome (versions : List String) (v : String)
    (hall : ∀ u ∈ versions, (wcversion_value u).isSome = true)
    (hv : v ∈ versions) :
    (wcmatch_resolved versions v).isSome = true := by
  obtain ⟨vv, hvv⟩ := Option.isSome_iff_exists.1 (hall v hv)
  have hgl := (ne_auto_latest_of_parses (by rw [hvv]; rfl)).2
  rw [wcmatch_resolved_eq versions v vv hgl hvv hall]
  have hfind : (versions.reverse.find? (fun u => versionLE u vv)).isSome := by
    rw [List.find?_isSome]
    exact ⟨v, List.mem_reverse.2 hv, by rw [versionLE_eq hvv]; exact tupleLE_refl vv⟩
  obtain ⟨w, hw⟩ := Option.isSome_iff_exists.1 hfind
  rw [hw]
  rfl

/-- Same, through the `'auto'` substitution layer of `_wcmatch_version`. -/
theorem wcmatch_version_with_mem_isSome (versions : List String) (env : Option String)
    (v : String)
    (hall : ∀ u ∈ versions, (wcversion_value u).isSome = true)
    (hv : v ∈ versions) :
    (wcmatch_version_with versions env v).isSome = true := by
  have hva := (ne_auto_latest_of_parses (hall v hv)).1
  unfold wcmatch_version_with wcmatch_version_full
  rw [if_neg hva]
  simp only [Option.isSome_map']
  exact wcmatch_resolved_mem_isSome versions v hall hv

/-- Whatever `_wcmatch_version` returns is a key of the supported-version
set: the maximum (`latest` path), a scanned entry, or the earliest
(fall-through path). -/
theorem wcmatch_resolved_result_mem (versions : List String) (given r : String)
    (flag : Bool)
    (hall : ∀ u ∈ versions, (wcversion_value u).isSome = true)
    (h : wcmatch_resolved versions given = some (r, flag)) : r ∈ versions := by
  by_cases hgl : given = "latest"
  · rw [wcmatch_resolved, if_pos hgl] at h
    obtain ⟨w, hw, hmap⟩ := Option.map_eq_some'.1 h
    cases hmap
    exact List.mem_of_getLast?_eq_some hw
  · cases hg : wcversion_value given with
    | none =>
      rw [wcmatch_resolved, if_neg hgl, hg] at h
      cases h
    | some gv =>
      rw [wcmatch_resolved_eq versions given gv hgl hg hall] at h
      cases hfind : versions.reverse.find? (fun u => versionLE u gv) with
      | some w =>
        rw [hfind] at h
        simp only [Option.some.injEq, Prod.mk.injEq] at h
        exact h.1 ▸ List.mem_reverse.1 (List.mem_of_find?_eq_some hfind)
      | none =>
        rw [hfind] at h
        dsimp only at h
        obtain ⟨w, hw, hmap⟩ := Option.map_eq_some'.1 h
        cases hmap
        exact mem_of_head?_eq hw

/-- C3: for a parseable non-sentinel token whose tuple is at least the value
of some supported version, `_wcmatch_version` returns the first supported
version in the descending scan whose value is `≤` the token's tuple;
over an ascending supported list this is the greatest supported version
with value `≤` the token's tuple. -/
theorem c3_resolve_nearest_lower (versions : List String) (env : Option String)
    (given : String) (gv : List Int)
    (hga : given ≠ "auto") (hgl : given ≠ "latest")
    (hg : wcversion_value given = some gv)
    (hall : ∀ u ∈ versions, (wcversion_value u).isSome = true)
    (hsort : versions.Pairwise (fun a b => tupleLE (valueOf b) (valueOf a) = false))
    (hex : ∃ u ∈ versions, versionLE u gv = true) :
    ∃ V, wcmatch_version_with versions env given = some V ∧
      versions.reverse.find? (fun u => versionLE u gv) = some V ∧
      V ∈ versions ∧ versionLE V gv = true ∧
      ∀ W ∈ versions, versionLE W gv = true →
        tupleLE (valueOf W) (valueOf V) = true := by
  have hfind : (versions.reverse.find? (fun u => versionLE u gv)).isSome := by
    rw [List.find?_isSome]
    obtain ⟨u, hu, hup⟩ := hex
    exact ⟨u, List.mem_reverse.2 hu, hup⟩
  obtain ⟨V, hV⟩ := Option.isSome_iff_exists.1 hfind
  refine ⟨V, ?_, hV, List.mem_reverse.1 (List.mem_of_find?_eq_some hV),
    by simpa using List.find?_some hV, ?_⟩
  · unfold wcmatch_version_with wcmatch_version_full
    rw [if_neg hga, wcmatch_resolved_eq versions given gv hgl hg hall, hV]
    rfl
  · obtain ⟨hpV, as, bs, hsplit, hfail⟩ := List.find?_eq_some.1 hV
    intro W hW hpW
    have hvers : versions = bs.reverse ++ V :: as.reverse := by
      have h1 := congrArg List.reverse hsplit
      rwa [List.reverse_reverse, List.reverse_append, List.reverse_cons,
        List.append_assoc, List.singleton_append] at h1
    rcases List.mem_append.1 (hvers ▸ hW) with hWl | hWr
    · have hpair := (List.pairwise_append.1 (hvers ▸ hsort)).2.2
      have hVW : tupleLE (valueOf V) (valueOf W) = false :=
        hpair W hWl V (List.mem_cons_self V as.reverse)
      rcases tupleLE_total (valueOf W) (valueOf V) with h | h
      · exact h
      · simp [h] at hVW
    · rcases List.mem_cons.1 hWr with rfl | hWtail
      · exact tupleLE_refl _
      · have hWfail := hfail W (List.mem_reverse.1 hWtail)
        simp [hpW] at hWfail

/-- C3 witness: `resolve("4.9.9")` with supported versions `4.1.0` and
`5.0.0` returns `"4.1.0"` (nearest lower). -/
theorem c3_resolve_nearest_lower_witness :
    wcmatch_version_with ["4.1.0", "5.0.0"] none "4.9.9" = some "4.1.0" := by
  obtain ⟨V, h1, h2, -, -, -⟩ :=
    c3_resolve_nearest_lower ["4.1.0", "5.0.0"] none "4.9.9" [4, 9, 9]
      (by decide) (by decide) (by rfl) (by decide) (by decide)
      ⟨"4.1.0", by simp, by rfl⟩
  have h3 : (["4.1.0", "5.0.0"] : List String).reverse.find?
      (fun u => versionLE u [4, 9, 9]) = some "4.1.0" := by rfl
  rw [h2] at h3
  injection h3 with h3
  rw [h1, h3]

/-- C4: a parseable token below every supported version falls through the
scan: `_wcmatch_version` warns and returns the earliest supported version,
which is a key of the supported set — it never fails. -/
theorem c4_resolve_below_range (versions : List String) (env : Option String)
    (given : String) (gv : List Int) (v0 : String) (rest : List String)
    (hv : versions = v0 :: rest)
    (hga : given ≠ "auto") (hgl : given ≠ "latest")
    (hg : wcversion_value given = some gv)
    (hall : ∀ u ∈ versions, (wcversion_value u).isSome = true)
    (hbelow : ∀ u ∈ versions, versionLE u gv = false) :
    wcmatch_version_full versions env given = some (v0, true) ∧
    wcmatch_version_with versions env given = some v0 ∧
    v0 ∈ versions := by
  have hfind : versions.reverse.find? (fun u => versionLE u gv) = none := by
    rw [List.find?_eq_none]
    intro x hx
    simp [hbelow x (List.mem_reverse.1 hx)]
  have hfull : wcmatch_version_full versions env given = some (v0, true) := by
    unfold wcmatch_version_full
    rw [if_neg hga, wcmatch_resolved_eq versions given gv hgl hg hall, hfind]
    dsimp only
    rw [hv]
    rfl
  refine ⟨hfull, ?_, hv ▸ List.mem_cons_self v0 rest⟩
  rw [wcmatch_version_with, hfull]
  rfl

/-- C4 witness: `resolve("1")` with earliest supported version `"4.1.0"`
returns `"4.1.0"` with an advisory warning. -/
theorem c4_resolve_below_range_witness :
    wcmatch_version_full ["4.1.0", "5.0.0"] none "1" = some ("4.1.0", true) ∧
    wcmatch_version_with ["4.1.0", "5.0.0"] none "1" = some "4.1.0" ∧
    "4.1.0" ∈ ["4.1.0", "5.0.0"] :=
  c4_resolve_below_range ["4.1.0", "5.0.0"] none "1" [1] "4.1.0" ["5.0.0"]
    rfl (by decide) (by decide) (by rfl) (by decide) (by decide)

/-- C5: code points in `[0, 31] ∪ [0x7F, 0x9F)` are classified `-1` under
every supported version token: the control test precedes every table
lookup. -/
theorem c5_control_negative_one (t : TableData) (env : Option String) (ucs : Nat)
    (v : String)
    (hc : ucs < 32 ∨ (0x7F ≤ ucs ∧ ucs < 0x9F))
    (hall : ∀ u ∈ t.versions, (wcversion_value u).isSome = true)
    (hv : v ∈ t.versions) :
    wcwidth t env ucs v = some (-1) := by
  obtain ⟨r, hr⟩ := Option.isSome_iff_exists.1
    (wcmatch_version_with_mem_isSome t.versions env v hall hv)
  rw [wcwidth, hr]
  rw [wcwidthCore, if_pos (by omega : ucs < 32 ∨ (0x7F ≤ ucs ∧ ucs < 0xA0))]

/-- C5 witness: NUL under the supported version `"8.0.0"`. -/
theorem c5_control_negative_one_witness :
    wcwidth exTables none 0 "8.0.0" = some (-1) :=
  c5_control_negative_one exTables none 0 "8.0.0" (by omega) (by decide)
    (by decide)

/-- C7: pre-resolving a token and passing the result classifies every code
point exactly as passing the original token (the external override source
held fixed). -/
theorem c7_resolve_idempotent (t : TableData) (env : Option String) (ucs : Nat)
    (v r : String)
    (hall : ∀ u ∈ t.versions, (wcversion_value u).isSome = true)
    (hr : wcmatch_version_with t.versions env v = some r) :
    wcwidth t env ucs r = wcwidth t env ucs v := by
  obtain ⟨⟨r2, flag⟩, hfull, hfst⟩ := Option.map_eq_some'.1 hr
  have hfull' : wcmatch_version_full t.versions env v = some (r, flag) := by
    rw [hfull]
    exact congrArg some (Prod.ext hfst rfl)
  have hrmem : r ∈ t.versions :=
    wcmatch_resolved_result_mem t.versions _ r flag hall hfull'
  obtain ⟨s, hs⟩ := Option.isSome_iff_exists.1
    (wcmatch_version_with_mem_isSome t.versions env r hall hrmem)
  rw [wcwidth, wcwidth, hr, hs]

/-- C7 witness: the token `"6.0"` resolves to `"5.0.0"`, and `width_of` at
U+0041 agrees between the resolved and the original token. -/
theorem c7_resolve_idempotent_witness :
    wcwidth exTables none 0x41 "5.0.0" = wcwidth exTables none 0x41 "6.0" :=
  c7_resolve_idempotent exTables none 0x41 "6.0" "5.0.0" (by decide) (by rfl)

/-! ### The interval binary search on a genuine interval list -/

theorem sortedDisjoint_tail {iv : Nat × Nat} {l : List (Nat × Nat)}
    (h : sortedDisjoint (iv :: l) = true) : sortedDisjoint l = true := by
  cases l with
  | nil => rfl
  | cons b rest =>
    simp only [sortedDisjoint, Bool.and_eq_true] at h
    exact h.2

theorem sortedDisjoint_head_valid {iv : Nat × Nat} {l : List (Nat × Nat)}
    (h : sortedDisjoint (iv :: l) = true) : iv.1 ≤ iv.2 := by
  cases l with
  | nil => simpa [sortedDisjoint] using h
  | cons b rest =>
    simp only [sortedDisjoint, Bool.and_eq_true, decide_eq_true_eq] at h
    exact h.1.1

theorem sortedDisjoint_valid {table : List (Nat × Nat)}
    (h : sortedDisjoint table = true) :
    ∀ (i : Nat) (iv : Nat × Nat), table[i]? = some iv → iv.1 ≤ iv.2 := by
  induction table with
  | nil =>
    intro i iv hiv
    simp at hiv
  | cons a l ih =>
    intro i iv hiv
    cases i with
    | zero =>
      simp only [List.getElem?_cons_zero, Option.some.injEq] at hiv
      exact hiv ▸ sortedDisjoint_head_valid h
    | succ n =>
      simp only [List.getElem?_cons_succ] at hiv
      exact ih (sortedDisjoint_tail h) n iv hiv

theorem sortedDisjoint_head_lt {iv : Nat × Nat} {l : List (Nat × Nat)}
    (h : sortedDisjoint (iv :: l) = true) :
    ∀ (m : Nat) (b : Nat × Nat), l[m]? = some b → iv.2 < b.1 := by
  induction l generalizing iv with
  | nil =>
    intro m b hb
    simp at hb
  | cons c rest ih =>
    intro m b hb
    have h2 : iv.2 < c.1 := by
      simp only [sortedDisjoint, Bool.and_eq_true, decide_eq_true_eq] at h
      exact h.1.2
    cases m with
    | zero =>
      simp only [List.getElem?_cons_zero, Option.some.injEq] at hb
      exact hb ▸ h2
    | succ n =>
      simp only [List.getElem?_cons_succ] at hb
      have h3 := ih (sortedDisjoint_tail h) n b hb
      have h4 : c.1 ≤ c.2 := sortedDisjoint_head_valid (sortedDisjoint_tail h)
      omega

theorem sortedDisjoint_lt {table : List (Nat × Nat)}
    (h : sortedDisjoint table = true) :
    ∀ (i j : Nat) (a b : Nat × Nat), i < j →
      table[i]? = some a → table[j]? = some b → a.2 < b.1 := by
  induction table with
  | nil =>
    intro i j a b hij ha hb
    simp at ha
  | cons x l ih =>
    intro i j a b hij ha hb
    cases i with
    | zero =>
      simp only [List.getElem?_cons_zero, Option.some.injEq] at ha
      cases j with
      | zero => omega
      | succ m =>
        simp only [List.getElem?_cons_succ] at hb
        exact ha ▸ sortedDisjoint_head_lt h m b hb
    | succ n =>
      cases j with
      | zero => omega
      | succ m =>
        simp only [List.getElem?_cons_succ] at ha hb
        exact ih (sortedDisjoint_tail h) n m a b (by omega) ha hb

/-- Within bounds `0 ≤ lbound` and `ubound < length`, every subscript the
loop performs is in bounds, so it never raises — for any table. -/
theorem bisearchLoop_isSome (table : List (Nat × Nat)) (q : Nat) :
    ∀ (n : Nat) (l u : Int), (u + 1 - l).toNat = n → 0 ≤ l →
      u < (table.length : Int) → (bisearchLoop table q l u).isSome = true := by
  intro n
  induction n using Nat.strong_induction_on with
  | _ n ih =>
    intro l u hn hl hu
    rw [bisearchLoop]
    split
    · next hlu =>
      have hidx : ((l + u) / 2).toNat < table.length := by omega
      rw [List.getElem?_eq_getElem hidx]
      dsimp only
      split
      · exact ih _ (by omega) _ _ rfl (by omega) hu
      · split
        · exact ih _ (by omega) _ _ rfl hl (by omega)
        · rfl
    · rfl

/-- The loop invariant: everything left of `lbound` ends below `q`,
everything right of `ubound` starts above `q`; then the loop answers
exactly interval membership over the whole table. -/
theorem bisearchLoop_correct (table : List (Nat × Nat)) (q : Nat)
    (hs : sortedDisjoint table = true) :
    ∀ (n : Nat) (l u : Int), (u + 1 - l).toNat = n → 0 ≤ l →
      u < (table.length : Int) →
      (∀ (i : Nat) (a : Nat × Nat), table[i]? = some a → (i : Int) < l → a.2 < q) →
      (∀ (i : Nat) (a : Nat × Nat), table[i]? = some a → u < (i : Int) → q < a.1) →
      bisearchLoop table q l u =
        some (if table.any (inInterval q) = true then 1 else 0) := by
  intro n
  induction n using Nat.strong_induction_on with
  | _ n ih =>
    intro l u hn hl hu hleft hright
    rw [bisearchLoop]
    split
    · next hlu =>
      have hidx : ((l + u) / 2).toNat < table.length := by omega
      obtain ⟨iv, hiv⟩ : ∃ iv, table[((l + u) / 2).toNat]? = some iv :=
        ⟨_, List.getElem?_eq_getElem hidx⟩
      rw [hiv]
      dsimp only
      split
      · next hgt =>
        refine ih _ (by omega) _ _ rfl (by omega) hu ?_ hright
        intro i a ha hi
        by_cases hil : (i : Int) < l
        · exact hleft i a ha hil
        · by_cases him : i = ((l + u) / 2).toNat
          · subst him
            rw [ha] at hiv
            injection hiv with hiv
            subst hiv
            omega
          · have hord := sortedDisjoint_lt hs i (((l + u) / 2).toNat) a iv
              (by omega) ha hiv
            have hv := sortedDisjoint_valid hs _ _ hiv
            omega
      · next hngt =>
        split
        · next hlt2 =>
          refine ih _ (by omega) _ _ rfl hl (by omega) hleft ?_
          intro i a ha hi
          by_cases him : i = ((l + u) / 2).toNat
          · subst him
            rw [ha] at hiv
            injection hiv with hiv
            subst hiv
            omega
          · have hb : i < table.length := by
              rcases List.getElem?_eq_some_iff.1 ha with ⟨hb, -⟩
              exact hb
            have hord := sortedDisjoint_lt hs (((l + u) / 2).toNat) i iv a
              (by omega) hiv ha
            have hv := sortedDisjoint_valid hs _ _ hiv
            omega
        · next hnlt =>
          have hany : table.any (inInterval q) = true := by
            rw [List.any_eq_true]
            refine ⟨iv, List.getElem?_mem hiv, ?_⟩
            simp only [inInterval, Bool.and_eq_true, decide_eq_true_eq]
            omega
          rw [hany]
          rfl
    · next hlu =>
      have hany : table.any (inInterval q) = false := by
        rw [List.any_eq_false]
        intro x hx
        obtain ⟨i, hi⟩ := List.mem_iff_getElem?.1 hx
        simp only [inInterval, Bool.and_eq_true, decide_eq_true_eq]
        by_cases hcase : (i : Int) < l
        · have := hleft i x hi hcase
          omega
        · have := hright i x hi (by omega)
          omega
      rw [hany]
      rfl

/-- C8: on a sorted, disjoint, non-empty interval table, `_bisearch` returns
1 exactly when the query lies inside some closed interval of the table, and
0 otherwise (the out-of-range short-circuit included). -/
theorem c8_bisearch_membership (table : List (Nat × Nat)) (q : Nat)
    (hs : sortedDisjoint table = true) (hne : table ≠ []) :
    bisearch q table = some (if table.any (inInterval q) = true then 1 else 0) := by
  have hlen : 0 < table.length := by
    cases table with
    | nil => exact absurd rfl hne
    | cons a l => simp
  obtain ⟨first, hfirst⟩ : ∃ x, table[0]? = some x := by
    cases hg : table[0]? with
    | some x => exact ⟨x, rfl⟩
    | none =>
      rw [List.getElem?_eq_none_iff] at hg
      omega
  obtain ⟨last, hlast⟩ : ∃ x, table[table.length - 1]? = some x := by
    cases hg : table[table.length - 1]? with
    | some x => exact ⟨x, rfl⟩
    | none =>
      rw [List.getElem?_eq_none_iff] at hg
      omega
  rw [bisearch, hfirst]
  dsimp only
  rw [hlast]
  dsimp only
  split
  · next hout =>
    have hany : table.any (inInterval q) = false := by
      rw [List.any_eq_false]
      intro x hx
      obtain ⟨i, hi⟩ := List.mem_iff_getElem?.1 hx
      simp only [inInterval, Bool.and_eq_true, decide_eq_true_eq]
      rcases hout with hout | hout
      · by_cases hi0 : i = 0
        · subst hi0
          rw [hi] at hfirst
          injection hfirst with hfirst
          subst hfirst
          omega
        · have hord := sortedDisjoint_lt hs 0 i first x (by omega) hfirst hi
          have hv := sortedDisjoint_valid hs 0 first hfirst
          omega
      · by_cases hilast : i = table.length - 1
        · subst hilast
          rw [hi] at hlast
          injection hlast with hlast
          subst hlast
          omega
        · have hb : i < table.length := by
            rcases List.getElem?_eq_some_iff.1 hi with ⟨hb, -⟩
            exact hb
          have hord := sortedDisjoint_lt hs i (table.length - 1) x last
            (by omega) hi hlast
          have hv := sortedDisjoint_valid hs _ _ hlast
          omega
    rw [hany]
    rfl
  · next hin =>
    refine bisearchLoop_correct table q hs _ 0 ((table.length : Int) - 1) rfl
      (by omega) (by omega) ?_ ?_
    · intro i a ha hi
      omega
    · intro i a ha hi
      have hb : i < table.length := by
        rcases List.getElem?_eq_some_iff.1 ha with ⟨hb, -⟩
        exact hb
      omega

/-- C8 witness: the spec's example table `[(10, 20), (30, 40)]` at queries
9, 10, 20, 21, 29, 30, 41. -/
theorem c8_bisearch_membership_witness :
    bisearch 9 exampleTable = some 0 ∧ bisearch 10 exampleTable = some 1 ∧
    bisearch 20 exampleTable = some 1 ∧ bisearch 21 exampleTable = some 0 ∧
    bisearch 29 exampleTable = some 0 ∧ bisearch 30 exampleTable = some 1 ∧
    bisearch 41 exampleTable = some 0 := by
  refine ⟨?_, ?_, ?_, ?_, ?_, ?_, ?_⟩ <;>
    · rw [c8_bisearch_membership _ _ (by decide) (by decide)]
      decide

/-- C9: `_bisearch` raises on the empty table (the initial `table[0]`
subscript is out of bounds) and is total on every non-empty table (the
initial accesses and every loop access are in bounds; termination of the
loop is established by the strictly decreasing `ubound - lbound` gap in
the definition of `bisearchLoop`). -/
theorem c9_bisearch_total_iff_nonempty (table : List (Nat × Nat)) (q : Nat) :
    (table = [] → bisearch q table = none) ∧
    (table ≠ [] → (bisearch q table).isSome = true) := by
  constructor
  · rintro rfl
    rfl
  · intro hne
    have hlen : 0 < table.length := by
      cases table with
      | nil => exact absurd rfl hne
      | cons a l => simp
    obtain ⟨first, hfirst⟩ : ∃ x, table[0]? = some x := by
      cases hg : table[0]? with
      | some x => exact ⟨x, rfl⟩
      | none =>
        rw [List.getElem?_eq_none_iff] at hg
        omega
    obtain ⟨last, hlast⟩ : ∃ x, table[table.length - 1]? = some x := by
      cases hg : table[table.length - 1]? with
      | some x => exact ⟨x, rfl⟩
      | none =>
        rw [List.getElem?_eq_none_iff] at hg
        omega
    rw [bisearch, hfirst]
    dsimp only
    rw [hlast]
    dsimp only
    split
    · rfl
    · exact bisearchLoop_isSome table q _ 0 ((table.length : Int) - 1) rfl
        (by omega) (by omega)

/-- C9 witness: the empty table raises; a one-interval table returns. -/
theorem c9_bisearch_total_iff_nonempty_witness :
    bisearch 7 [] = none ∧ (bisearch 7 [(5, 6)]).isSome = true :=
  ⟨(c9_bisearch_total_iff_nonempty [] 7).1 rfl,
   (c9_bisearch_total_iff_nonempty [(5, 6)] 7).2 (by decide)⟩

/-! ### Evaluations of the classifier as written -/

/-- C1 (refuted): `wcwidth` never consults the resolved version's tables.
The calls at lines 137 and 141 pass the whole version-indexed mappings to
`_bisearch`, whose `table[0]` then raises `KeyError`; here two resolved
versions whose `wide_eastasian` tables differ yield the identical
non-classification (`none`) at U+1F300 instead of differing widths. -/
theorem c1_resolved_tables_not_consulted :
    exTables.wide_eastasian.lookup "4.1.0" ≠ exTables.wide_eastasian.lookup "8.0.0" ∧
    wcwidth exTables none 0x1F300 "4.1.0" = none ∧
    wcwidth exTables none 0x1F300 "8.0.0" = none :=
  ⟨by decide, rfl, rfl⟩

/-- C2 (refuted): `(8, 0, 0) ≤ (8, 0)` is false in Python tuple order, so
the scan skips the supported `"8.0.0"` and `_wcmatch_version("8.0")`
returns the next-lower supported version `"5.0.0"`, contrary to the
function's own doctest (`_wcmatch_version('8.0')` = `'8.0.0'`). -/
theorem c2_partial_version_not_matched :
    tupleLE [8, 0, 0] [8, 0] = false ∧
    wcmatch_version_with ["4.1.0", "5.0.0", "8.0.0"] none "8.0" = some "5.0.0" :=
  ⟨rfl, rfl⟩

/-- C6 (refuted in its short-circuit half): NUL classifies as `-1`, but a
string holding a wide CJK character before the NUL makes `wcswidth` raise
(`none`) at the first character instead of returning `-1`; the empty and
`limit = 0` cases do return `0`. -/
theorem c6_string_width_paths :
    wcwidth exTables none 0 "8.0.0" = some (-1) ∧
    wcswidth exTables none [0x4E00, 0] none "8.0.0" = none ∧
    wcswidth exTables none [] none "8.0.0" = some 0 ∧
    wcswidth exTables none [0x4E00, 0] (some 0) "8.0.0" = some 0 :=
  ⟨rfl, rfl, rfl, rfl⟩

/-- C10: `wcwidth` accepts a one-character string or its ordinal as first
argument (`ord(wc) if isinstance(wc, str) else wc`) and classifies the two
forms identically for every scalar value. -/
theorem c10_str_int_agree (t : TableData) (env : Option String) (n : Nat)
    (v : String) (_hn : n ≤ 0x10FFFF) :
    wcwidthArg t env (WcArg.onechar n) v = wcwidthArg t env (WcArg.int n) v := rfl

/-- C10 witness: U+4E00 as a one-character string and as an int. -/
theorem c10_str_int_agree_witness :
    wcwidthArg exTables none (WcArg.onechar 0x4E00) "8.0.0" =
      wcwidthArg exTables none (WcArg.int 0x4E00) "8.0.0" :=
  c10_str_int_agree exTables none 0x4E00 "8.0.0" (by omega)

end Wcwidth
